import Mathlib

/-!
Verification of the slug → destination-path resolution implemented in
`webpack.config.js` (the `templates` computation, lines 36–66).

The JavaScript source, for reference:

```
const templates = data.map(value => {
    if (value.slug.startsWith('/')) {
        value.slug.replace('^/', '');
    }
    const path = /^(.*?)(\w[\w\-\.]*\/?)$/.exec(value.slug);
    if (path && path[2]) {
        if (path[2].indexOf('.') === -1) {
            path[1] += path[2].endsWith('/') ? `${path[2]}index.html` : `${path[2]}/index.html`;
        }
        else if (path[2] !== 'index.html') {
            path[1] += `${path[2].replace(/\.\w+$/, '')}/index.html`;
        } else {
            path[1] += 'index.html'
        }
    } else {
        throw Error(`Incorrect slug: ${value.slug}`);
    }
    return {
        from: `${__dirname}/${value.template}`,
        to: `${BUILD_DIR}/${path[1]}`,
        context: value.context
    }
});
```

Strings are embedded as `List Char`.  Two points of JavaScript semantics are
modelled exactly:

* `value.slug.replace('^/', '')` has no effect: `String.prototype.replace`
  returns a new string whose value is discarded here, and its first argument
  is the literal two-character string `"^/"`, not a regular expression.  The
  slug reaching the regex is therefore always the original slug, leading
  separator included.  Consequently the embedding has no stripping step.

* The regex `/^(.*?)(\w[\w\-\.]*\/?)$/` is anchored on both sides with a lazy
  first group, so `exec` succeeds exactly when the slug splits as
  `prefix ++ seg` where every character of `prefix` is matchable by `.`
  (anything but a line terminator) and `seg` is in the language
  `\w [\w\-.]* /?`; among the successful splits the lazy `(.*?)` selects the
  one with the shortest prefix, i.e. the longest such trailing segment.
-/

/-- JavaScript `\w` (no `u` flag): ASCII letters, digits, underscore. -/
def wordChar (c : Char) : Bool :=
  c.isAlpha || c.isDigit || c = '_'

/-- The character class `[\w\-.]` of the second regex group. -/
def segChar (c : Char) : Bool :=
  wordChar c || c = '-' || c = '.'

/-- JavaScript `.` (no `s` flag): any character except a line terminator. -/
def dotChar (c : Char) : Bool :=
  !(c = '\n' || c = '\r' || c = Char.ofNat 0x2028 || c = Char.ofNat 0x2029)

/-- Membership in the language `[\w\-.]* /?` — the part of the second regex
group after its leading `\w`: a run of segment characters optionally closed
by a single trailing separator. -/
def matchesTail : List Char → Bool
  | [] => true
  | c :: rest => (decide (c = '/') && rest.isEmpty) || (segChar c && matchesTail rest)

/-- Membership in the language of the second regex group `\w[\w\-.]*\/?`. -/
def matchesSeg : List Char → Bool
  | [] => false
  | c :: rest => wordChar c && matchesTail rest

/-- `/^(.*?)(\w[\w\-\.]*\/?)$/.exec(slug)`: the lazy first group takes the
shortest prefix (each of whose characters `.` can match) whose complement is
in the language of the second group; `none` models a `null` match, on which
the source throws `Incorrect slug`. -/
def execSlug : List Char → Option (List Char × List Char)
  | [] => none
  | c :: rest =>
    if matchesSeg (c :: rest) then some ([], c :: rest)
    else if dotChar c then
      (execSlug rest).map (fun pt => (c :: pt.1, pt.2))
    else none

/-- `seg.replace(/\.\w+$/, '')`: remove a final extension — a dot followed by
one or more word characters running to the end of the string — when present;
otherwise return the string unchanged.  Reading the string from the right:
the maximal trailing run of word characters must be nonempty and be preceded
by a dot. -/
def stripExt (t : List Char) : List Char :=
  if ¬(t.reverse.takeWhile wordChar).isEmpty
      ∧ (t.reverse.dropWhile wordChar).head? = some '.' then
    ((t.reverse.dropWhile wordChar).tail).reverse
  else t

/-- The literal filename appended by every branch of the classification. -/
def indexHtml : List Char := "index.html".toList

/-- The three-way classification applied to the second capture group
`path[2]`, returning the string appended to `path[1]`:
`indexOf('.') === -1` is directory-like, `'index.html'` is passed through,
and any other dotted name has its extension stripped and is promoted to a
directory. -/
def resolveSeg (p2 : List Char) : List Char :=
  if '.' ∉ p2 then
    if p2.getLast? = some '/' then p2 ++ indexHtml else p2 ++ '/' :: indexHtml
  else if p2 ≠ indexHtml then
    stripExt p2 ++ '/' :: indexHtml
  else
    indexHtml

/-- The rewritten `path[1]` for a slug: parent prefix plus the classified
last segment, before `BUILD_DIR` is prepended. -/
def resolveRel (slug : List Char) : Option (List Char) :=
  (execSlug slug).map (fun pt => pt.1 ++ resolveSeg pt.2)

/-- `resolve(slug, buildRoot)`: the `to:` field `${BUILD_DIR}/${path[1]}` on
success, and on a failed match the thrown `InvalidSlugError`, modelled as
`Except.error` carrying the offending slug (the source embeds it in the
message `Incorrect slug: ${value.slug}`). -/
def resolve (slug root : List Char) : Except (List Char) (List Char) :=
  match execSlug slug with
  | none => .error slug
  | some pt => .ok (root ++ '/' :: (pt.1 ++ resolveSeg pt.2))

/-- One input record of the `data` list: a slug, a template file reference
and an opaque context payload. -/
structure ContentDescriptor (α : Type) where
  slug : List Char
  template : List Char
  context : α
deriving DecidableEq

/-- One element of `templates`: the object
`{ from: dirname/template, to: BUILD_DIR/path1, context }`
(`from` and `to` are Lean keywords, hence the guillemets). -/
structure OutputMapping (α : Type) where
  «from» : List Char
  «to» : List Char
  context : α
deriving DecidableEq

deriving instance DecidableEq for Except

/-- The body of the `data.map` callback for one descriptor. -/
def resolveDescriptor (dirname root : List Char) (v : ContentDescriptor α) :
    Except (List Char) (OutputMapping α) :=
  match execSlug v.slug with
  | none => .error v.slug
  | some pt =>
    .ok ⟨dirname ++ '/' :: v.template, root ++ '/' :: (pt.1 ++ resolveSeg pt.2), v.context⟩

/-- `data.map(...)` with the thrown error propagating: the callback runs left
to right and the first failure aborts the whole computation, producing no
list of mappings at all. -/
def templates (dirname root : List Char) :
    List (ContentDescriptor α) → Except (List Char) (List (OutputMapping α))
  | [] => .ok []
  | v :: rest =>
    match resolveDescriptor dirname root v with
    | .error e => .error e
    | .ok m =>
      match templates dirname root rest with
      | .error e => .error e
      | .ok ms => .ok (m :: ms)

/-- The final path component of a destination: everything after the last
separator. -/
def finalComponent (l : List Char) : List Char :=
  (l.reverse.takeWhile (fun c => !(c = '/'))).reverse

/-- The last segment with its optional trailing separator removed, used to
state the one-separator properties. -/
def dropSlash (t : List Char) : List Char :=
  if t.getLast? = some '/' then t.dropLast else t

example : resolve "about".toList "/d".toList = .ok "/d/about/index.html".toList := by decide
example : resolve "about/".toList "/d".toList = .ok "/d/about/index.html".toList := by decide
example : resolve "about/index.html".toList "/d".toList = .ok "/d/about/index.html".toList := by
  decide
example : resolve "about/team.html".toList "/d".toList = .ok "/d/about/team/index.html".toList := by
  decide
example : resolve "a.b.c".toList "/d".toList = .ok "/d/a.b/index.html".toList := by decide
example : resolve "".toList "/d".toList = .error [] := by decide
example : resolve "/".toList "/d".toList = .error "/".toList := by decide
example : resolve "/about".toList "/d".toList = .ok "/d//about/index.html".toList := by decide
example : resolve "a.b/".toList "/d".toList = .ok "/d/a.b//index.html".toList := by decide
example : resolve "a.-b".toList "/d".toList = .ok "/d/a.-b/index.html".toList := by decide
example : resolve "/d/about/index.html".toList "/d".toList
    = .ok "/d//d/about/index.html".toList := by decide

/-! ### Character-class and segment-shape lemmas -/

lemma segChar_of_wordChar {c : Char} (h : wordChar c = true) : segChar c = true := by
  simp [segChar, h]

lemma dotChar_of_segChar {c : Char} (h : segChar c = true) : dotChar c = true := by
  unfold dotChar
  simp only [Bool.not_eq_true', Bool.or_eq_false_iff, decide_eq_false_iff_not]
  refine ⟨⟨⟨?_, ?_⟩, ?_⟩, ?_⟩ <;> intro hc <;> subst hc <;> exact absurd h (by decide)

lemma matchesTail_shape : ∀ {l : List Char}, matchesTail l = true →
    (∀ c ∈ l, segChar c = true) ∨ ∃ u, l = u ++ ['/'] ∧ ∀ c ∈ u, segChar c = true := by
  intro l
  induction l with
  | nil => intro _; exact Or.inl (by simp)
  | cons c rest ih =>
    intro h
    simp only [matchesTail, Bool.or_eq_true, Bool.and_eq_true, decide_eq_true_eq,
      List.isEmpty_iff] at h
    rcases h with ⟨rfl, rfl⟩ | ⟨hc, hm⟩
    · exact Or.inr ⟨[], rfl, by simp⟩
    · rcases ih hm with hall | ⟨u, rfl, hu⟩
      · refine Or.inl ?_
        intro d hd
        rcases List.mem_cons.mp hd with rfl | hd'
        · exact hc
        · exact hall d hd'
      · refine Or.inr ⟨c :: u, rfl, ?_⟩
        intro d hd
        rcases List.mem_cons.mp hd with rfl | hd'
        · exact hc
        · exact hu d hd'

lemma matchesSeg_shape {t : List Char} (h : matchesSeg t = true) :
    (∀ c ∈ t, segChar c = true) ∨ ∃ u, t = u ++ ['/'] ∧ ∀ c ∈ u, segChar c = true := by
  match t with
  | [] => exact absurd h (by decide)
  | c :: rest =>
    simp only [matchesSeg, Bool.and_eq_true] at h
    rcases matchesTail_shape h.2 with hall | ⟨u, hu, hall⟩
    · refine Or.inl ?_
      intro d hd
      rcases List.mem_cons.mp hd with rfl | hd'
      · exact segChar_of_wordChar h.1
      · exact hall d hd'
    · refine Or.inr ⟨c :: u, by rw [hu]; rfl, ?_⟩
      intro d hd
      rcases List.mem_cons.mp hd with rfl | hd'
      · exact segChar_of_wordChar h.1
      · exact hall d hd'

lemma matchesSeg_all_dotChar {t : List Char} (h : matchesSeg t = true) :
    ∀ c ∈ t, dotChar c = true := by
  intro c hc
  rcases matchesSeg_shape h with hall | ⟨u, rfl, hu⟩
  · exact dotChar_of_segChar (hall c hc)
  · rcases List.mem_append.mp hc with hc' | hc'
    · exact dotChar_of_segChar (hu c hc')
    · rcases List.mem_singleton.mp hc' with rfl
      decide

lemma matchesSeg_ne_nil {t : List Char} (h : matchesSeg t = true) : t ≠ [] := by
  intro hnil; subst hnil; exact absurd h (by decide)

lemma eq_dropSlash_concat {t : List Char} (h : t.getLast? = some '/') :
    t = dropSlash t ++ ['/'] := by
  have hne : t ≠ [] := by intro hnil; subst hnil; simp at h
  have hg : t.getLast hne = '/' := by
    have h2 := List.getLast?_eq_getLast t hne
    rw [h2] at h
    exact Option.some_inj.mp h
  unfold dropSlash
  rw [if_pos h, ← hg, List.dropLast_append_getLast hne]

lemma dropSlash_eq_self {t : List Char} (h : ¬t.getLast? = some '/') : dropSlash t = t := by
  unfold dropSlash
  rw [if_neg h]

lemma noSlash_dropSlash {t : List Char} (h : matchesSeg t = true) : '/' ∉ dropSlash t := by
  rcases matchesSeg_shape h with hall | ⟨u, rfl, hu⟩
  · intro hmem
    have hsub : dropSlash t ⊆ t := by
      unfold dropSlash
      split
      · exact List.dropLast_subset t
      · exact fun x hx => hx
    have := hall '/' (hsub hmem)
    exact absurd this (by decide)
  · intro hmem
    have hlast : (u ++ ['/']).getLast? = some '/' := by
      rw [List.getLast?_concat]
    unfold dropSlash at hmem
    rw [if_pos hlast, List.dropLast_concat] at hmem
    have := hu '/' hmem
    exact absurd this (by decide)

/-! ### Soundness and completeness of the regex match -/

lemma execSlug_sound : ∀ {l p t : List Char}, execSlug l = some (p, t) →
    l = p ++ t ∧ matchesSeg t = true ∧ ∀ c ∈ p, dotChar c = true := by
  intro l
  induction l with
  | nil => intro p t h; exact absurd h (by simp [execSlug])
  | cons c rest ih =>
    intro p t h
    by_cases h1 : matchesSeg (c :: rest) = true
    · rw [show execSlug (c :: rest) = some ([], c :: rest) by simp [execSlug, h1]] at h
      obtain ⟨h2, h3⟩ := Prod.mk.injEq .. ▸ Option.some_inj.mp h
      subst h2; subst h3
      exact ⟨rfl, h1, by simp⟩
    · by_cases h2 : dotChar c = true
      · rw [show execSlug (c :: rest)
              = (execSlug rest).map (fun pt => (c :: pt.1, pt.2)) by
            simp [execSlug, h1, h2]] at h
        rcases Option.map_eq_some'.mp h with ⟨⟨p', t'⟩, hp', heq⟩
        obtain ⟨hpp, htt⟩ := Prod.mk.injEq .. ▸ heq
        subst hpp; subst htt
        obtain ⟨hsplit, hm, hall⟩ := ih hp'
        refine ⟨by rw [List.cons_append, ← hsplit], hm, ?_⟩
        intro d hd
        rcases List.mem_cons.mp hd with rfl | hd'
        · exact h2
        · exact hall d hd'
      · rw [show execSlug (c :: rest) = none by simp [execSlug, h1, h2]] at h
        exact absurd h (by simp)

lemma execSlug_none_iff : ∀ {l : List Char}, execSlug l = none ↔
    ¬∃ p t, l = p ++ t ∧ matchesSeg t = true ∧ ∀ c ∈ p, dotChar c = true := by
  intro l
  induction l with
  | nil =>
    simp only [execSlug, true_iff]
    rintro ⟨p, t, hpt, hm, -⟩
    obtain ⟨-, rfl⟩ := List.append_eq_nil.mp hpt.symm
    exact absurd hm (by decide)
  | cons c rest ih =>
    by_cases h1 : matchesSeg (c :: rest) = true
    · rw [show execSlug (c :: rest) = some ([], c :: rest) by simp [execSlug, h1]]
      simp only [reduceCtorEq, false_iff, not_not]
      exact ⟨[], c :: rest, rfl, h1, by simp⟩
    · by_cases h2 : dotChar c = true
      · rw [show execSlug (c :: rest)
              = (execSlug rest).map (fun pt => (c :: pt.1, pt.2)) by
            simp [execSlug, h1, h2]]
        rw [Option.map_eq_none', ih]
        constructor
        · rintro hn ⟨p, t, hpt, hm, hall⟩
          cases p with
          | nil =>
            rw [List.nil_append] at hpt
            exact h1 (hpt ▸ hm)
          | cons c2 p' =>
            rw [List.cons_append] at hpt
            obtain ⟨-, hrest⟩ := List.cons.injEq .. ▸ hpt
            refine hn ⟨p', t, hrest, hm, ?_⟩
            intro d hd
            exact hall d (List.mem_cons_of_mem c2 hd)
        · rintro hn ⟨p', t, hpt, hm, hall⟩
          refine hn ⟨c :: p', t, by rw [hpt, List.cons_append], hm, ?_⟩
          intro d hd
          rcases List.mem_cons.mp hd with rfl | hd'
          · exact h2
          · exact hall d hd'
      · rw [show execSlug (c :: rest) = none by simp [execSlug, h1, h2]]
        simp only [true_iff]
        rintro ⟨p, t, hpt, hm, hall⟩
        cases p with
        | nil =>
          rw [List.nil_append] at hpt
          exact h1 (hpt ▸ hm)
        | cons c2 p' =>
          rw [List.cons_append] at hpt
          obtain ⟨hc, -⟩ := List.cons.injEq .. ▸ hpt
          exact h2 (hc ▸ hall c2 (List.mem_cons_self c2 p'))

/-! ### The extension-stripping rewrite -/

lemma takeWhile_all_append (p : Char → Bool) (a b : List Char)
    (h : ∀ x ∈ a, p x = true) : (a ++ b).takeWhile p = a ++ b.takeWhile p := by
  induction a with
  | nil => simp
  | cons x a' ih =>
    rw [List.cons_append, List.takeWhile_cons_of_pos (h x (List.mem_cons_self x a')),
      ih (fun y hy => h y (List.mem_cons_of_mem x hy)), List.cons_append]

lemma dropWhile_all_append (p : Char → Bool) (a b : List Char)
    (h : ∀ x ∈ a, p x = true) : (a ++ b).dropWhile p = b.dropWhile p := by
  induction a with
  | nil => simp
  | cons x a' ih =>
    rw [List.cons_append, List.dropWhile_cons_of_pos (h x (List.mem_cons_self x a')),
      ih (fun y hy => h y (List.mem_cons_of_mem x hy))]

lemma stripExt_concat (b e : List Char) (he : e ≠ [])
    (hw : ∀ c ∈ e, wordChar c = true) : stripExt (b ++ '.' :: e) = b := by
  have hrev : (b ++ '.' :: e).reverse = e.reverse ++ '.' :: b.reverse := by
    rw [List.reverse_append, List.reverse_cons, List.append_assoc, List.singleton_append]
  have hw' : ∀ c ∈ e.reverse, wordChar c = true := fun c hc =>
    hw c (List.mem_reverse.mp hc)
  have htake : (b ++ '.' :: e).reverse.takeWhile wordChar = e.reverse := by
    rw [hrev, takeWhile_all_append wordChar _ _ hw',
      List.takeWhile_cons_of_neg (by decide), List.append_nil]
  have hdrop : (b ++ '.' :: e).reverse.dropWhile wordChar = '.' :: b.reverse := by
    rw [hrev, dropWhile_all_append wordChar _ _ hw',
      List.dropWhile_cons_of_neg (by decide)]
  unfold stripExt
  rw [if_pos]
  · rw [hdrop, List.tail_cons, List.reverse_reverse]
  · refine ⟨?_, by rw [hdrop]; rfl⟩
    rw [htake]
    simp [he]

lemma stripExt_of_no_ext {t : List Char}
    (h : ¬∃ b e, t = b ++ '.' :: e ∧ e ≠ [] ∧ ∀ c ∈ e, wordChar c = true) :
    stripExt t = t := by
  unfold stripExt
  rw [if_neg]
  rintro ⟨hne, hhd⟩
  obtain ⟨rest2, hr2⟩ : ∃ rest2, t.reverse.dropWhile wordChar = '.' :: rest2 := by
    cases hcase : t.reverse.dropWhile wordChar with
    | nil => rw [hcase] at hhd; exact absurd hhd (by simp)
    | cons x xs =>
      rw [hcase] at hhd
      obtain rfl : x = '.' := by simpa using hhd
      exact ⟨xs, rfl⟩
  apply h
  refine ⟨rest2.reverse, (t.reverse.takeWhile wordChar).reverse, ?_, ?_, ?_⟩
  · have hsplit := List.takeWhile_append_dropWhile (p := wordChar) (l := t.reverse)
    rw [hr2] at hsplit
    calc t = t.reverse.reverse := (List.reverse_reverse t).symm
      _ = (t.reverse.takeWhile wordChar ++ '.' :: rest2).reverse := by rw [hsplit]
      _ = rest2.reverse ++ '.' :: (t.reverse.takeWhile wordChar).reverse := by
        rw [List.reverse_append, List.reverse_cons, List.append_assoc,
          List.singleton_append]
  · simpa using hne
  · intro c hc
    exact List.mem_takeWhile_imp (List.mem_reverse.mp hc)

/-! ### Branch equations for the classification -/

lemma resolve_eq_ok {slug root p t : List Char} (h : execSlug slug = some (p, t)) :
    resolve slug root = .ok (root ++ '/' :: (p ++ resolveSeg t)) := by
  unfold resolve
  rw [h]

lemma resolve_eq_error {slug root : List Char} (h : execSlug slug = none) :
    resolve slug root = .error slug := by
  unfold resolve
  rw [h]

lemma resolveSeg_no_dot {t : List Char} (hd : '.' ∉ t) :
    resolveSeg t = dropSlash t ++ '/' :: indexHtml := by
  unfold resolveSeg
  rw [if_pos hd]
  by_cases hl : t.getLast? = some '/'
  · rw [if_pos hl]
    conv_lhs => rw [eq_dropSlash_concat hl]
    rw [List.append_assoc, List.singleton_append]
  · rw [if_neg hl, dropSlash_eq_self hl]

lemma resolveSeg_named {t : List Char} (hd : '.' ∈ t) (hne : t ≠ indexHtml) :
    resolveSeg t = stripExt t ++ '/' :: indexHtml := by
  unfold resolveSeg
  rw [if_neg (not_not_intro hd), if_pos hne]

lemma resolveSeg_index : resolveSeg indexHtml = indexHtml := by decide

lemma resolveSeg_ends_indexHtml (t : List Char) : ∃ x, resolveSeg t = x ++ indexHtml := by
  unfold resolveSeg
  split
  · split
    · exact ⟨t, rfl⟩
    · exact ⟨t ++ ['/'], by rw [List.append_assoc, List.singleton_append]⟩
  · split
    · exact ⟨stripExt t ++ ['/'], by rw [List.append_assoc, List.singleton_append]⟩
    · exact ⟨[], rfl⟩

/-! ### Re-resolving a produced relative destination -/

lemma matchesTail_cons (c : Char) (rest : List Char) :
    matchesTail (c :: rest)
      = ((decide (c = '/') && rest.isEmpty) || (segChar c && matchesTail rest)) := rfl

lemma matchesSeg_cons (c : Char) (rest : List Char) :
    matchesSeg (c :: rest) = (wordChar c && matchesTail rest) := rfl

lemma execSlug_cons (c : Char) (rest : List Char) :
    execSlug (c :: rest)
      = if matchesSeg (c :: rest) then some ([], c :: rest)
        else if dotChar c then (execSlug rest).map (fun pt => (c :: pt.1, pt.2))
        else none := rfl

lemma matchesTail_append_indexHtml {l : List Char} (h : l.getLast? = some '/') :
    matchesTail (l ++ indexHtml) = false := by
  induction l with
  | nil => simp at h
  | cons d l' ih =>
    cases l' with
    | nil =>
      obtain rfl : d = '/' := by simpa using h
      decide
    | cons y ys =>
      rw [List.getLast?_cons_cons] at h
      have hrec := ih h
      rw [List.cons_append, matchesTail_cons, hrec]
      simp

lemma execSlug_append_indexHtml : ∀ {x : List Char}, (∀ c ∈ x, dotChar c = true) →
    x.getLast? = some '/' → execSlug (x ++ indexHtml) = some (x, indexHtml) := by
  intro x
  induction x with
  | nil => intro _ h; simp at h
  | cons c x' ih =>
    intro hall h
    cases x' with
    | nil =>
      obtain rfl : c = '/' := by simpa using h
      decide
    | cons y ys =>
      rw [List.getLast?_cons_cons] at h
      have hrec := ih (fun d hd => hall d (List.mem_cons_of_mem c hd)) h
      have hc := hall c (List.mem_cons_self c (y :: ys))
      have hseg : matchesSeg (c :: ((y :: ys) ++ indexHtml)) = false := by
        rw [matchesSeg_cons, matchesTail_append_indexHtml h]
        simp
      rw [List.cons_append, execSlug_cons, if_neg (by rw [hseg]; simp), if_pos hc, hrec]
      rfl

lemma execSlug_concat_slash_indexHtml {x : List Char}
    (hall : ∀ c ∈ x, dotChar c = true) :
    execSlug ((x ++ ['/']) ++ indexHtml) = some (x ++ ['/'], indexHtml) :=
  execSlug_append_indexHtml
    (fun c hc => by
      rcases List.mem_append.mp hc with h | h
      · exact hall c h
      · rcases List.mem_singleton.mp h with rfl
        decide)
    (List.getLast?_concat _)

lemma mem_of_mem_stripExt {t : List Char} {c : Char} (h : c ∈ stripExt t) : c ∈ t := by
  unfold stripExt at h
  split at h
  · have h1 : c ∈ (t.reverse.dropWhile wordChar).tail := List.mem_reverse.mp h
    have h2 : c ∈ t.reverse.dropWhile wordChar := List.mem_of_mem_tail h1
    have h3 : c ∈ t.reverse := (List.dropWhile_sublist wordChar).subset h2
    exact List.mem_reverse.mp h3
  · exact h

lemma mem_of_mem_dropSlash {t : List Char} {c : Char} (h : c ∈ dropSlash t) : c ∈ t := by
  unfold dropSlash at h
  split at h
  · exact List.dropLast_subset t h
  · exact h

lemma resolveRel_eq {slug p t : List Char} (h : execSlug slug = some (p, t)) :
    resolveRel slug = some (p ++ resolveSeg t) := by
  unfold resolveRel
  rw [h, Option.map_some']

lemma resolveRel_idem {s r : List Char} (h : resolveRel s = some r) :
    resolveRel r = some r := by
  obtain ⟨⟨p, t⟩, hex, hr⟩ := Option.map_eq_some'.mp h
  dsimp only at hr
  obtain ⟨hsplit, hm, hall⟩ := execSlug_sound hex
  have hallt : ∀ c ∈ t, dotChar c = true := matchesSeg_all_dotChar hm
  by_cases hd : '.' ∈ t
  · by_cases hne : t = indexHtml
    · subst hne
      rw [resolveSeg_index] at hr
      subst hr
      rw [hsplit] at hex
      rw [resolveRel_eq hex, resolveSeg_index]
    · rw [resolveSeg_named hd hne] at hr
      subst hr
      have hx : p ++ (stripExt t ++ '/' :: indexHtml)
          = ((p ++ stripExt t) ++ ['/']) ++ indexHtml := by
        simp [List.append_assoc]
      have hallx : ∀ c ∈ p ++ stripExt t, dotChar c = true := by
        intro c hc
        rcases List.mem_append.mp hc with h' | h'
        · exact hall c h'
        · exact hallt c (mem_of_mem_stripExt h')
      rw [hx, resolveRel_eq (execSlug_concat_slash_indexHtml hallx), resolveSeg_index]
  · rw [resolveSeg_no_dot hd] at hr
    subst hr
    have hx : p ++ (dropSlash t ++ '/' :: indexHtml)
        = ((p ++ dropSlash t) ++ ['/']) ++ indexHtml := by
      simp [List.append_assoc]
    have hallx : ∀ c ∈ p ++ dropSlash t, dotChar c = true := by
      intro c hc
      rcases List.mem_append.mp hc with h' | h'
      · exact hall c h'
      · exact hallt c (mem_of_mem_dropSlash h')
    rw [hx, resolveRel_eq (execSlug_concat_slash_indexHtml hallx), resolveSeg_index]

/-! ### The produced destination names a dotted file -/

lemma mem_takeWhile_of_all_left {p : Char → Bool} {a : List Char} (b : List Char)
    (h : ∀ x ∈ a, p x = true) {c : Char} (hc : c ∈ a) : c ∈ (a ++ b).takeWhile p := by
  rw [takeWhile_all_append p a b h]
  exact List.mem_append_left _ hc

lemma dot_mem_finalComponent {d x : List Char} (hd : d = x ++ indexHtml) :
    '.' ∈ finalComponent d := by
  unfold finalComponent
  apply List.mem_reverse.mpr
  rw [hd, List.reverse_append]
  exact mem_takeWhile_of_all_left x.reverse (by decide) (by decide)

/-! ### Equations and inversion for the `templates` traversal -/

lemma resolveDescriptor_error {dirname root : List Char} {v : ContentDescriptor α}
    (h : execSlug v.slug = none) :
    resolveDescriptor dirname root v = .error v.slug := by
  unfold resolveDescriptor
  rw [h]

lemma resolveDescriptor_ok {dirname root : List Char} {v : ContentDescriptor α}
    {p t : List Char} (h : execSlug v.slug = some (p, t)) :
    resolveDescriptor dirname root v
      = .ok ⟨dirname ++ '/' :: v.template, root ++ '/' :: (p ++ resolveSeg t), v.context⟩ := by
  unfold resolveDescriptor
  rw [h]

lemma resolveDescriptor_context {dirname root : List Char} {v : ContentDescriptor α}
    {m : OutputMapping α} (h : resolveDescriptor dirname root v = .ok m) :
    m.context = v.context := by
  unfold resolveDescriptor at h
  split at h
  · exact absurd h (by simp)
  · cases h
    rfl

lemma templates_cons (dirname root : List Char) (v : ContentDescriptor α)
    (rest : List (ContentDescriptor α)) :
    templates dirname root (v :: rest)
      = match resolveDescriptor dirname root v with
        | .error e => .error e
        | .ok m =>
          match templates dirname root rest with
          | .error e => .error e
          | .ok ms => .ok (m :: ms) := rfl

lemma templates_cons_ok {dirname root : List Char} {v : ContentDescriptor α}
    {m : OutputMapping α} {rest : List (ContentDescriptor α)}
    (hv : resolveDescriptor dirname root v = .ok m) :
    templates dirname root (v :: rest)
      = match templates dirname root rest with
        | .error e => .error e
        | .ok ms => .ok (m :: ms) := by
  rw [templates_cons, hv]

lemma templates_cons_error {dirname root e : List Char} {v : ContentDescriptor α}
    {rest : List (ContentDescriptor α)}
    (hv : resolveDescriptor dirname root v = .error e) :
    templates dirname root (v :: rest) = .error e := by
  rw [templates_cons, hv]

lemma templates_cons_tail_error {dirname root e : List Char} {v : ContentDescriptor α}
    {m : OutputMapping α} {rest : List (ContentDescriptor α)}
    (hv : resolveDescriptor dirname root v = .ok m)
    (ht : templates dirname root rest = .error e) :
    templates dirname root (v :: rest) = .error e := by
  rw [templates_cons_ok hv, ht]

lemma templates_cons_ok_inv {dirname root : List Char} {v : ContentDescriptor α}
    {rest : List (ContentDescriptor α)} {out : List (OutputMapping α)}
    (h : templates dirname root (v :: rest) = .ok out) :
    ∃ m ms, resolveDescriptor dirname root v = .ok m
      ∧ templates dirname root rest = .ok ms ∧ out = m :: ms := by
  rw [templates_cons] at h
  split at h
  · exact absurd h (by simp)
  · split at h
    · exact absurd h (by simp)
    · exact ⟨_, _, by assumption, by assumption, (Except.ok.inj h).symm⟩

/-! ### Pointwise description of a successful `templates` run -/

lemma templates_pointwise {α : Type} (dirname root : List Char) :
    ∀ (data : List (ContentDescriptor α)) (out : List (OutputMapping α)),
    templates dirname root data = .ok out →
    out.length = data.length ∧
    ∀ i (hi : i < data.length) (ho : i < out.length),
      resolveDescriptor dirname root (data.get ⟨i, hi⟩) = .ok (out.get ⟨i, ho⟩) := by
  intro data
  induction data with
  | nil =>
    intro out h
    obtain rfl : ([] : List (OutputMapping α)) = out := Except.ok.inj h
    exact ⟨rfl, fun i hi _ => absurd hi (by simp)⟩
  | cons v rest ih =>
    intro out h
    obtain ⟨m, ms, hv, hts, rfl⟩ := templates_cons_ok_inv h
    obtain ⟨hlen, hpt⟩ := ih ms hts
    refine ⟨by simp [hlen], ?_⟩
    intro i hi ho
    cases i with
    | zero => simpa using hv
    | succ j =>
      have hj : j < rest.length := by simpa using hi
      have hj' : j < ms.length := by simpa using ho
      simpa using hpt j hj hj'

/-! ### Claims -/

/-- C1 (amended): for every slug whose last segment contains no dot, the
destination is `parentPrefix` + `lastSegment` joined with exactly one
separator before `index.html`.  The original claim also put segments that
end in a separator but contain a dot in this class; those fall into the
named-file branch instead and receive a second separator (see the
counterexample). -/
theorem claim_C1 (s r p t : List Char) (hex : execSlug s = some (p, t))
    (hd : '.' ∉ t) :
    resolve s r = .ok (r ++ '/' :: (p ++ (dropSlash t ++ '/' :: indexHtml)))
      ∧ '/' ∉ dropSlash t := by
  obtain ⟨-, hm, -⟩ := execSlug_sound hex
  refine ⟨?_, noSlash_dropSlash hm⟩
  rw [resolve_eq_ok hex, resolveSeg_no_dot hd]

/-- C1 witness: the amended statement evaluated on the slug `about/`. -/
theorem claim_C1_witness :
    resolve "about/".toList "/d".toList
        = .ok ("/d".toList ++ '/' :: ([] ++ (dropSlash "about/".toList ++ '/' :: indexHtml)))
      ∧ '/' ∉ dropSlash "about/".toList :=
  claim_C1 "about/".toList "/d".toList [] "about/".toList (by decide) (by decide)

/-- C1 counterexample: the slug `a.b/` has a last segment that ends with a
trailing separator, so the claim requires destination `root/a.b/index.html`
with exactly one separator before `index.html`; the code classifies it by
its dot, strips nothing, and produces two separators. -/
theorem claim_C1_cex :
    resolve "a.b/".toList "/d".toList = .ok "/d/a.b//index.html".toList
      ∧ "/d/a.b//index.html".toList ≠ "/d/a.b/index.html".toList :=
  ⟨by decide, by decide⟩

/-- C2 (amended): for every slug whose last segment contains a dot and is not
`index.html`, the destination is `parentPrefix` + `replace(/\.\w+$/,'')` of
the segment + `/index.html`, where the replace strips the final extension
only when the text after the last dot consists of one or more word
characters running to the end of the segment, and otherwise leaves the
segment unchanged (the original claim said all text from the last dot is
always stripped); the two concrete examples of the claim hold. -/
theorem claim_C2 :
    (∀ s r p t, execSlug s = some (p, t) → '.' ∈ t → t ≠ indexHtml →
      resolve s r = .ok (r ++ '/' :: (p ++ (stripExt t ++ '/' :: indexHtml))))
    ∧ (∀ b e, e ≠ [] → (∀ c ∈ e, wordChar c = true) → stripExt (b ++ '.' :: e) = b)
    ∧ (∀ t, (¬∃ b e, t = b ++ '.' :: e ∧ e ≠ [] ∧ ∀ c ∈ e, wordChar c = true) →
        stripExt t = t)
    ∧ (∀ r, resolve "about/team.html".toList r = .ok (r ++ "/about/team/index.html".toList))
    ∧ (∀ r, resolve "a.b.c".toList r = .ok (r ++ "/a.b/index.html".toList)) := by
  refine ⟨?_, stripExt_concat, fun t h => stripExt_of_no_ext h, fun r => rfl, fun r => rfl⟩
  intro s r p t hex hd hne
  rw [resolve_eq_ok hex, resolveSeg_named hd hne]

/-- C2 witness: the amended statement evaluated on the slug `x.tar.gz` and
the extension-stripping equation on `x.tar` + `.gz`. -/
theorem claim_C2_witness :
    resolve "x.tar.gz".toList "/d".toList
        = .ok ("/d".toList ++ '/' :: ([] ++ (stripExt "x.tar.gz".toList ++ '/' :: indexHtml)))
      ∧ stripExt ("x.tar".toList ++ '.' :: "gz".toList) = "x.tar".toList :=
  ⟨claim_C2.1 "x.tar.gz".toList "/d".toList [] "x.tar.gz".toList (by decide) (by decide)
      (by decide),
   claim_C2.2.1 "x.tar".toList "gz".toList (by decide) (by decide)⟩

/-- C2 counterexample: in the segment `a.-b` the text after the last dot is
`-b`, so the claim requires it to be stripped, giving `root/a/index.html`;
`replace(/\.\w+$/,'')` does not match (`-` is not a word character) and the
code produces `root/a.-b/index.html`. -/
theorem claim_C2_cex :
    resolve "a.-b".toList "/d".toList = .ok "/d/a.-b/index.html".toList
      ∧ resolve "a.-b".toList "/d".toList ≠ .ok "/d/a/index.html".toList :=
  ⟨by decide, by decide⟩

/-- C3: for every slug whose last segment contains no dot, the destination
appends the segment and `index.html` with exactly one separator between
them, whether or not the segment already ends in a separator; in particular
`resolve("about", root) = root/"about/index.html"` and
`resolve("about/", root) = root/"about/index.html"`. -/
theorem claim_C3 :
    (∀ s r p t, execSlug s = some (p, t) → '.' ∉ t →
      ∃ base, resolve s r = .ok (r ++ '/' :: (p ++ (base ++ '/' :: indexHtml)))
        ∧ '/' ∉ base ∧ (t = base ∨ t = base ++ ['/']))
    ∧ (∀ r, resolve "about".toList r = .ok (r ++ "/about/index.html".toList))
    ∧ (∀ r, resolve "about/".toList r = .ok (r ++ "/about/index.html".toList)) := by
  refine ⟨?_, fun r => rfl, fun r => rfl⟩
  intro s r p t hex hd
  obtain ⟨-, hm, -⟩ := execSlug_sound hex
  refine ⟨dropSlash t, ?_, noSlash_dropSlash hm, ?_⟩
  · rw [resolve_eq_ok hex, resolveSeg_no_dot hd]
  · by_cases hl : t.getLast? = some '/'
    · exact Or.inr (eq_dropSlash_concat hl)
    · exact Or.inl (dropSlash_eq_self hl).symm

/-- C3 witness: the general statement evaluated on the slug `blog/post`. -/
theorem claim_C3_witness :
    ∃ base, resolve "blog/post".toList "/d".toList
        = .ok ("/d".toList ++ '/' :: ("blog/".toList ++ (base ++ '/' :: indexHtml)))
      ∧ '/' ∉ base ∧ ("post".toList = base ∨ "post".toList = base ++ ['/']) :=
  claim_C3.1 "blog/post".toList "/d".toList "blog/".toList "post".toList (by decide)
    (by decide)

/-- C4 (amended): for every slug whose last segment is exactly `index.html`
the destination is `parentPrefix` + `index.html` unchanged, and
`resolve("about/index.html", root) = root/"about/index.html"`.  Resolution
is idempotent on the relative destination (the rewritten `path[1]`):
re-resolving the portion of any produced destination relative to `buildRoot`
yields that same relative path.  The absolute destination itself is not a
fixed point, because `BUILD_DIR` and a separator are prepended
unconditionally on every call (see the counterexample). -/
theorem claim_C4 :
    (∀ s r p, execSlug s = some (p, indexHtml) →
      resolve s r = .ok (r ++ '/' :: (p ++ indexHtml)))
    ∧ (∀ r, resolve "about/index.html".toList r = .ok (r ++ "/about/index.html".toList))
    ∧ (∀ s d, resolveRel s = some d → resolveRel d = some d) := by
  refine ⟨?_, fun r => rfl, fun s d h => resolveRel_idem h⟩
  intro s r p hex
  rw [resolve_eq_ok hex, resolveSeg_index]

/-- C4 witness: the relative destination produced for the slug `about` is a
fixed point of re-resolution. -/
theorem claim_C4_witness :
    resolveRel "about/index.html".toList = some "about/index.html".toList :=
  claim_C4.2.2 "about".toList "about/index.html".toList (by decide)

/-- C4 counterexample: the destination produced for the slug `about` under
buildRoot `/d` is the absolute path `/d/about/index.html`; re-resolving that
absolute path prepends the build root again, so the result is
`/d//d/about/index.html`, not the destination itself. -/
theorem claim_C4_cex :
    resolve "about".toList "/d".toList = .ok "/d/about/index.html".toList
      ∧ resolve "/d/about/index.html".toList "/d".toList
          = .ok "/d//d/about/index.html".toList
      ∧ "/d//d/about/index.html".toList ≠ "/d/about/index.html".toList :=
  ⟨by decide, by decide, by decide⟩

/-- C5: resolution fails, with the error carrying the offending slug,
exactly when the slug has no decomposition into a `.`-matchable prefix
followed by a trailing segment in the language `\w[\w\-.]*\/?` — in
particular the empty slug fails — and a failing descriptor turns the whole
`templates` computation into that error, so no list of output mappings is
produced for it or for later descriptors. -/
theorem claim_C5 :
    (∀ s r : List Char, resolve s r = .error s ↔
      ¬∃ p t, s = p ++ t ∧ matchesSeg t = true ∧ ∀ c ∈ p, dotChar c = true)
    ∧ (∀ r, resolve [] r = .error [])
    ∧ (∀ (α : Type) (dirname root : List Char) (pre : List (ContentDescriptor α))
        (d : ContentDescriptor α) (post : List (ContentDescriptor α))
        (out : List (OutputMapping α)),
        templates dirname root pre = .ok out → execSlug d.slug = none →
        templates dirname root (pre ++ d :: post) = .error d.slug) := by
  refine ⟨?_, fun r => rfl, ?_⟩
  · intro s r
    rw [← execSlug_none_iff]
    constructor
    · intro h
      cases hex : execSlug s with
      | none => rfl
      | some pt =>
        unfold resolve at h
        rw [hex] at h
        exact absurd h (by simp)
    · intro h
      exact resolve_eq_error h
  · intro α dirname root pre
    induction pre with
    | nil =>
      intro d post out _ hd
      rw [List.nil_append]
      exact templates_cons_error (resolveDescriptor_error hd)
    | cons v pre' ih =>
      intro d post out h hd
      obtain ⟨m, ms, hv, hts, rfl⟩ := templates_cons_ok_inv h
      rw [List.cons_append]
      exact templates_cons_tail_error hv (ih d post ms hts hd)

/-- C5 witness: a descriptor with the empty slug aborts a one-element
`templates` run with the error carrying that slug. -/
theorem claim_C5_witness :
    templates "D".toList "/d".toList
        ([] ++ (⟨[], "t".toList, (0 : Nat)⟩ : ContentDescriptor Nat) :: [])
      = .error [] :=
  claim_C5.2.2 Nat "D".toList "/d".toList [] ⟨[], "t".toList, 0⟩ [] [] rfl (by decide)

/-- C6 (amended): a slug consisting of just a separator does not resolve; it
fails with the error carrying `"/"`, because the trailing-segment pattern
requires at least one word character.  The original claim said it resolves
to `index.html` directly under the build root. -/
theorem claim_C6 (r : List Char) : resolve "/".toList r = .error "/".toList := rfl

/-- C6 counterexample: `resolve("/", "/d")` is an error, not the successful
`/d/index.html` the claim requires. -/
theorem claim_C6_cex :
    resolve "/".toList "/d".toList ≠ .ok "/d/index.html".toList := by decide

/-- C7: evaluation at the failing input.  Resolving `/about` keeps the
leading separator — `value.slug.replace('^/', '')` discards its result and
its pattern is the literal string `^/` — so the destination is
`/d//about/index.html`, while resolving `about` gives `/d/about/index.html`:
the two destinations differ, contradicting the claim that a leading
separator only roots the slug under the build root. -/
theorem claim_C7 :
    resolve ('/' :: "about".toList) "/d".toList = .ok "/d//about/index.html".toList
    ∧ resolve "about".toList "/d".toList = .ok "/d/about/index.html".toList
    ∧ ("/d//about/index.html".toList : List Char) ≠ "/d/about/index.html".toList :=
  ⟨by decide, by decide, by decide⟩

/-- C8: every successful destination extends `buildRoot` followed by a
separator (so it is rooted under the build output directory, and absolute
whenever `buildRoot` is), and its final path component contains a dot. -/
theorem claim_C8 (s r d : List Char) (h : resolve s r = .ok d) :
    (∃ rel, d = (r ++ ['/']) ++ rel) ∧ '.' ∈ finalComponent d := by
  cases hex : execSlug s with
  | none =>
    rw [resolve_eq_error hex] at h
    exact absurd h (by simp)
  | some pt =>
    obtain ⟨p, t⟩ := pt
    rw [resolve_eq_ok hex] at h
    obtain rfl := Except.ok.inj h
    constructor
    · exact ⟨p ++ resolveSeg t, by rw [List.append_assoc, List.singleton_append]⟩
    · obtain ⟨x, hx⟩ := resolveSeg_ends_indexHtml t
      exact dot_mem_finalComponent (x := r ++ '/' :: (p ++ x))
        (by rw [hx]; simp [List.append_assoc])

/-- C8 witness: the invariant evaluated on the destination of the slug
`about` under buildRoot `/d`. -/
theorem claim_C8_witness :
    (∃ rel, "/d/about/index.html".toList = ("/d".toList ++ ['/']) ++ rel)
      ∧ '.' ∈ finalComponent "/d/about/index.html".toList :=
  claim_C8 "about".toList "/d".toList "/d/about/index.html".toList (by decide)

/-- C9: a successful `templates` run maps the descriptor list to a mapping
list of the same length, in order, each descriptor producing exactly the one
mapping computed from it, with its context payload unchanged. -/
theorem claim_C9 (α : Type) (dirname root : List Char)
    (data : List (ContentDescriptor α)) (out : List (OutputMapping α))
    (h : templates dirname root data = .ok out) :
    out.length = data.length ∧
    ∀ i (hi : i < data.length) (ho : i < out.length),
      resolveDescriptor dirname root (data.get ⟨i, hi⟩) = .ok (out.get ⟨i, ho⟩)
      ∧ (out.get ⟨i, ho⟩).context = (data.get ⟨i, hi⟩).context := by
  obtain ⟨hlen, hpt⟩ := templates_pointwise dirname root data out h
  exact ⟨hlen, fun i hi ho => ⟨hpt i hi ho, resolveDescriptor_context (hpt i hi ho)⟩⟩

/-- The concrete descriptor list of the C9 witness. -/
def data9 : List (ContentDescriptor Nat) := [⟨"a".toList, "t".toList, 7⟩]

/-- The output mapping list `templates` produces for `data9`. -/
def out9 : List (OutputMapping Nat) := [⟨"D/t".toList, "/d/a/index.html".toList, 7⟩]

/-- C9 witness: the statement evaluated on a one-descriptor list. -/
theorem claim_C9_witness :
    out9.length = data9.length ∧
    ∀ i (hi : i < data9.length) (ho : i < out9.length),
      resolveDescriptor "D".toList "/d".toList (data9.get ⟨i, hi⟩) = .ok (out9.get ⟨i, ho⟩)
      ∧ (out9.get ⟨i, ho⟩).context = (data9.get ⟨i, hi⟩).context :=
  claim_C9 Nat "D".toList "/d".toList data9 out9 (by decide)

/-- C10: every successful destination ends with the literal string
`index.html`: each branch of the classification appends exactly that
filename. -/
theorem claim_C10 (s r d : List Char) (h : resolve s r = .ok d) :
    ∃ x, d = x ++ indexHtml := by
  cases hex : execSlug s with
  | none =>
    rw [resolve_eq_error hex] at h
    exact absurd h (by simp)
  | some pt =>
    obtain ⟨p, t⟩ := pt
    rw [resolve_eq_ok hex] at h
    obtain rfl := Except.ok.inj h
    obtain ⟨x, hx⟩ := resolveSeg_ends_indexHtml t
    exact ⟨r ++ '/' :: (p ++ x), by rw [hx]; simp [List.append_assoc]⟩

/-- C10 witness: the suffix invariant evaluated on the destination of the
slug `about/team.html`. -/
theorem claim_C10_witness :
    ∃ x, "/d/about/team/index.html".toList = x ++ indexHtml :=
  claim_C10 "about/team.html".toList "/d".toList "/d/about/team/index.html".toList
    (by decide)
